import Mathlib

/-!
Shallow embedding of `src/mpi_wrappers/ProcessTree.py`.

The source builds an in-memory tree of `PTNode`s (`grow_tree` / `PTNode.grow`)
threading a mutable `GrowStatus` through the recursion, and then a coordinator
traversal `ProcessTree._send_parents_and_children` sends each node's
`(parent_id, child_ids, leaf_sizes)` triple to the rank equal to the node's id.

Embedding choices:
* Python's mutable `GrowStatus` becomes explicit state passing: `grow` returns
  the updated status alongside its boolean result and the (possibly mutated)
  node.
* `PTNode.grow(status, depth)` recurses at `depth+1` and stops at
  `depth == status.height`; every call reachable from `grow_tree` has
  `depth ≤ status.height`.  We represent the remaining levels
  `fuel = status.height - depth` directly: the source's test
  `depth == status.height` becomes `fuel == 0`, and the recursive call at
  `depth + 1` passes `fuel - 1`.
* The Python `parent` attribute is a cyclic object reference; here a node
  stores its parent's id (`Option Int`), set at the same program point where
  the source executes `potential_child.parent = self` (so `parent = none`
  mirrors Python's `parent = None` class default).
* A `PTNode` on which `grow` has never run the "useful" path keeps the class
  defaults `_id = -1`, `is_leaf = False`, `leaf_size = 0`, `parent = None`;
  its missing `children` attribute is modelled as the empty list.
* MPI sends are modelled by returning the list of messages in send order:
  each element is `(destination rank, payload)`.
-/

/-- `GrowStatus` from the source: target shape (`bf`, `height`,
`desired_leaves`) plus the running counters `num_nodes` and `num_leaves`
(class defaults 0).  `desired_leaves` is an `Int` because the source accepts
any Python integer, including non-positive ones. -/
structure GrowStatus where
  bf : Nat
  height : Nat
  desired_leaves : Int
  num_nodes : Nat
  num_leaves : Nat
  deriving Repr, DecidableEq

/-- One node of the planned hierarchy, with the fields of the Python class
`PTNode`: `_id` (class default `-1`), `is_leaf` (default `false`),
`leaf_size` (default `0`), `parent` (default `none`, stored as the parent's
id), and the ordered `children` list. -/
inductive PTNode : Type where
  | mk (_id : Int) (is_leaf : Bool) (leaf_size : Nat) (parent : Option Int)
      (children : List PTNode) : PTNode
  deriving Repr

def PTNode._id : PTNode → Int
  | .mk i _ _ _ _ => i

def PTNode.is_leaf : PTNode → Bool
  | .mk _ l _ _ _ => l

def PTNode.leaf_size : PTNode → Nat
  | .mk _ _ s _ _ => s

def PTNode.parent : PTNode → Option Int
  | .mk _ _ _ p _ => p

def PTNode.children : PTNode → List PTNode
  | .mk _ _ _ _ cs => cs

/-- A `PTNode()` as freshly constructed, before `grow` mutates it: all class
defaults (`_id = -1`, `is_leaf = False`, `leaf_size = 0`, `parent = None`,
no children attached). -/
def PTNode.unassigned : PTNode := .mk (-1) false 0 none []

/-- `potential_child.parent = self`: overwrite the node's parent reference
with the parent's id. -/
def PTNode.setParent (t : PTNode) (pid : Int) : PTNode :=
  match t with
  | .mk i l s _ cs => .mk i l s (some pid) cs

/-- The `for i in range(status.bf)` loop body of `PTNode.grow`: run `recur`
(the recursive `grow` call one level down) `n` times, threading the status;
each successful child has its `parent` set to `pid` and is appended, an
unsuccessful one is discarded.  Returns the accepted children in order
together with the final status. -/
def PTNode.growChildren (recur : GrowStatus → Bool × PTNode × GrowStatus)
    (pid : Int) : Nat → GrowStatus → List PTNode × GrowStatus
  | 0, st => ([], st)
  | n + 1, st =>
    let r := recur st
    let rest := PTNode.growChildren recur pid n r.2.2
    if r.1 then (r.2.1.setParent pid :: rest.1, rest.2) else rest

/-- The entry guard of `PTNode.grow`: the tree already has enough leaves
(`status.num_leaves >= status.desired_leaves`, compared as integers). -/
def GrowStatus.enough (status : GrowStatus) : Prop :=
  (status.num_leaves : Int) ≥ status.desired_leaves

instance (status : GrowStatus) : Decidable status.enough :=
  inferInstanceAs (Decidable (_ ≤ _))

/-- `PTNode.grow(status, depth)` with `fuel = status.height - depth`.
Returns `(useful, node, status)`: the boolean result of the Python method,
the node as mutated by the call (the fresh `PTNode.unassigned` when the
entry guard fires), and the updated status. -/
def PTNode.grow : Nat → GrowStatus → Bool × PTNode × GrowStatus
  | fuel, status =>
    -- Tree is already big enough - stop growing it
    if status.enough then
      (false, PTNode.unassigned, status)
    else
      -- Hand out an ID number to this node and count it
      let i : Int := status.num_nodes
      let st1 : GrowStatus :=
        { status with num_nodes := status.num_nodes + 1 }
      match fuel with
      | 0 =>
        -- depth == status.height: this node is a leaf
        (true, .mk i true 1 none [],
          { st1 with num_leaves := st1.num_leaves + 1 })
      | fuel' + 1 =>
        -- recursively grow children (# of children = bf), summing leaf sizes
        let r := PTNode.growChildren (PTNode.grow fuel') i st1.bf st1
        (true, .mk i false ((r.1.map PTNode.leaf_size).sum) none r.1, r.2)

/-- `grow_tree(bf, height, desired_leaves)`: build a fresh `GrowStatus`,
grow the root at depth 0 (`fuel = height`), return the root and the status. -/
def grow_tree (bf height : Nat) (desired_leaves : Int) :
    PTNode × GrowStatus :=
  let status : GrowStatus := ⟨bf, height, desired_leaves, 0, 0⟩
  let r := PTNode.grow height status
  (r.2.1, r.2.2)

/-- `PTNode.get_child_ids`. -/
def PTNode.get_child_ids (t : PTNode) : List Int :=
  t.children.map PTNode._id

/-- `PTNode.get_child_leaf_sizes`. -/
def PTNode.get_child_leaf_sizes (t : PTNode) : List Nat :=
  t.children.map PTNode.leaf_size

/-! ## Observations on the grown tree -/

mutual
/-- Pre-order listing of the nodes of a tree: the node itself, then the
nodes of its children's subtrees, left to right.  This is also the
visiting order of `_send_parents_and_children`. -/
def PTNode.nodes : PTNode → List PTNode
  | .mk i l s p cs => .mk i l s p cs :: PTNode.nodesList cs

/-- Pre-order listing of the nodes of a forest. -/
def PTNode.nodesList : List PTNode → List PTNode
  | [] => []
  | c :: cs => c.nodes ++ PTNode.nodesList cs
end

/-- The ids of the tree's nodes, in pre-order. -/
def PTNode.ids (t : PTNode) : List Int :=
  t.nodes.map PTNode._id

/-- The nodes at exact depth `d` below `t` (the root `t` is at depth 0),
left to right. -/
def PTNode.nodesAtDepth : Nat → PTNode → List PTNode
  | 0, t => [t]
  | d + 1, t => (t.children.map (PTNode.nodesAtDepth d)).flatten

/-- Number of leaf nodes (nodes with no children) in the tree. -/
def PTNode.countLeaves (t : PTNode) : Nat :=
  (t.nodes.filter (fun n => n.children.isEmpty)).length

mutual
/-- The message trace of `ProcessTree._send_parents_and_children`, in send
order: for each visited node, the destination rank (the node's `_id`) and
the payload `(parent_id, child_ids, leaf_sizes)`, followed by the traces of
the children in order. -/
def PTNode.sendParentsAndChildren :
    PTNode → List (Int × (Option Int × List Int × List Nat))
  | .mk i l s p cs =>
    (i, (p, (PTNode.mk i l s p cs).get_child_ids,
        (PTNode.mk i l s p cs).get_child_leaf_sizes)) ::
      PTNode.sendList cs

/-- Message trace of the recursive calls over a list of children. -/
def PTNode.sendList :
    List PTNode → List (Int × (Option Int × List Int × List Nat))
  | [] => []
  | c :: cs => c.sendParentsAndChildren ++ PTNode.sendList cs
end

/-! ## Per-node invariant checkers (decidable, over the pre-order list) -/

/-- Every node of the tree satisfies `check`. -/
def PTNode.allNodes (t : PTNode) (check : PTNode → Bool) : Bool :=
  t.nodes.all check

/-- `leaf_size` bookkeeping: a childless node has `leaf_size = 1`, an
internal node's `leaf_size` is the sum of its children's `leaf_size`. -/
def PTNode.leafSizesOK (t : PTNode) : Bool :=
  t.allNodes fun n =>
    if n.children.isEmpty then n.leaf_size == 1
    else n.leaf_size == (n.children.map PTNode.leaf_size).sum

/-- `is_leaf` is set exactly on the childless nodes. -/
def PTNode.leafFlagsOK (t : PTNode) : Bool :=
  t.allNodes fun n => n.is_leaf == n.children.isEmpty

/-- Every child's stored `parent` is its owner's id. -/
def PTNode.parentsOK (t : PTNode) : Bool :=
  t.allNodes fun n => n.children.all fun c => c.parent == some n._id

/-- Every node's id is strictly below every id in its children's subtrees. -/
def PTNode.idOrderOK (t : PTNode) : Bool :=
  t.allNodes fun n =>
    n.children.all fun c => c.nodes.all fun m => n._id < m._id

/-! ## Basic simp lemmas about the data model -/

@[simp] theorem PTNode.id_mk (i : Int) (l : Bool) (s : Nat) (p : Option Int)
    (cs : List PTNode) : (PTNode.mk i l s p cs)._id = i := rfl

@[simp] theorem PTNode.is_leaf_mk (i : Int) (l : Bool) (s : Nat)
    (p : Option Int) (cs : List PTNode) :
    (PTNode.mk i l s p cs).is_leaf = l := rfl

@[simp] theorem PTNode.leaf_size_mk (i : Int) (l : Bool) (s : Nat)
    (p : Option Int) (cs : List PTNode) :
    (PTNode.mk i l s p cs).leaf_size = s := rfl

@[simp] theorem PTNode.parent_mk (i : Int) (l : Bool) (s : Nat)
    (p : Option Int) (cs : List PTNode) :
    (PTNode.mk i l s p cs).parent = p := rfl

@[simp] theorem PTNode.children_mk (i : Int) (l : Bool) (s : Nat)
    (p : Option Int) (cs : List PTNode) :
    (PTNode.mk i l s p cs).children = cs := rfl

@[simp] theorem PTNode.setParent_mk (i : Int) (l : Bool) (s : Nat)
    (p : Option Int) (cs : List PTNode) (pid : Int) :
    (PTNode.mk i l s p cs).setParent pid = .mk i l s (some pid) cs := rfl

@[simp] theorem PTNode.nodes_mk (i : Int) (l : Bool) (s : Nat)
    (p : Option Int) (cs : List PTNode) :
    (PTNode.mk i l s p cs).nodes = .mk i l s p cs :: PTNode.nodesList cs := by
  rw [PTNode.nodes]

@[simp] theorem PTNode.nodesList_nil : PTNode.nodesList [] = [] := by
  rw [PTNode.nodesList]

@[simp] theorem PTNode.nodesList_cons (c : PTNode) (cs : List PTNode) :
    PTNode.nodesList (c :: cs) = c.nodes ++ PTNode.nodesList cs := by
  rw [PTNode.nodesList]

@[simp] theorem PTNode.nodesAtDepth_zero (t : PTNode) :
    PTNode.nodesAtDepth 0 t = [t] := rfl

@[simp] theorem PTNode.nodesAtDepth_succ (d : Nat) (t : PTNode) :
    PTNode.nodesAtDepth (d + 1) t =
      (t.children.map (PTNode.nodesAtDepth d)).flatten := rfl

theorem PTNode.nodes_ne_nil (t : PTNode) : t.nodes ≠ [] := by
  cases t; simp

/-- The head of the pre-order listing is the root itself. -/
theorem PTNode.nodes_head (t : PTNode) : ∃ l, t.nodes = t :: l := by
  cases t; simp

theorem PTNode.self_mem_nodes (t : PTNode) : t ∈ t.nodes := by
  cases t; simp

/-! ## `setParent` only changes the `parent` field of the root node -/

@[simp] theorem PTNode.id_setParent (t : PTNode) (pid : Int) :
    (t.setParent pid)._id = t._id := by cases t; rfl

@[simp] theorem PTNode.is_leaf_setParent (t : PTNode) (pid : Int) :
    (t.setParent pid).is_leaf = t.is_leaf := by cases t; rfl

@[simp] theorem PTNode.leaf_size_setParent (t : PTNode) (pid : Int) :
    (t.setParent pid).leaf_size = t.leaf_size := by cases t; rfl

@[simp] theorem PTNode.parent_setParent (t : PTNode) (pid : Int) :
    (t.setParent pid).parent = some pid := by cases t; rfl

@[simp] theorem PTNode.children_setParent (t : PTNode) (pid : Int) :
    (t.setParent pid).children = t.children := by cases t; rfl

theorem PTNode.nodes_setParent (t : PTNode) (pid : Int) :
    (t.setParent pid).nodes = t.setParent pid :: PTNode.nodesList t.children := by
  cases t; simp

@[simp] theorem PTNode.length_nodes_setParent (t : PTNode) (pid : Int) :
    (t.setParent pid).nodes.length = t.nodes.length := by
  cases t; simp

@[simp] theorem PTNode.ids_setParent (t : PTNode) (pid : Int) :
    (t.setParent pid).ids = t.ids := by
  cases t; simp [PTNode.ids]

@[simp] theorem PTNode.countLeaves_setParent (t : PTNode) (pid : Int) :
    (t.setParent pid).countLeaves = t.countLeaves := by
  cases t with
  | mk i l s p cs => cases cs <;> simp [PTNode.countLeaves]

/-! ## Unfolding equations for `grow` and `growChildren` -/

theorem PTNode.growChildren_zero (recur : GrowStatus → Bool × PTNode × GrowStatus)
    (pid : Int) (st : GrowStatus) :
    PTNode.growChildren recur pid 0 st = ([], st) := rfl

theorem PTNode.growChildren_succ (recur : GrowStatus → Bool × PTNode × GrowStatus)
    (pid : Int) (n : Nat) (st : GrowStatus) :
    PTNode.growChildren recur pid (n + 1) st =
      (let r := recur st
       let rest := PTNode.growChildren recur pid n r.2.2
       if r.1 then (r.2.1.setParent pid :: rest.1, rest.2) else rest) := rfl

/-- When the entry guard fires, `grow` makes no change at all: it reports
`useful = false`, leaves the node with all its class defaults, and does not
touch the status. -/
theorem PTNode.grow_enough (fuel : Nat) (st : GrowStatus) (h : st.enough) :
    PTNode.grow fuel st = (false, PTNode.unassigned, st) := by
  cases fuel <;> simp [PTNode.grow, h]

theorem PTNode.grow_zero (st : GrowStatus) (h : ¬st.enough) :
    PTNode.grow 0 st =
      (true, .mk st.num_nodes true 1 none [],
        ⟨st.bf, st.height, st.desired_leaves, st.num_nodes + 1,
          st.num_leaves + 1⟩) := by
  simp [PTNode.grow, h]

theorem PTNode.grow_succ (fuel : Nat) (st : GrowStatus) (h : ¬st.enough) :
    PTNode.grow (fuel + 1) st =
      (let r := PTNode.growChildren (PTNode.grow fuel) (st.num_nodes : Int)
          st.bf { st with num_nodes := st.num_nodes + 1 }
       (true, .mk st.num_nodes false ((r.1.map PTNode.leaf_size).sum) none r.1,
        r.2)) := by
  simp [PTNode.grow, h]

/-- Independently of the guard, `grow` reports `useful = true` exactly when
the guard did not fire. -/
theorem PTNode.grow_useful_iff (fuel : Nat) (st : GrowStatus) :
    (PTNode.grow fuel st).1 = true ↔ ¬st.enough := by
  by_cases h : st.enough
  · simp [PTNode.grow_enough fuel st h, h]
  · cases fuel
    · simp [PTNode.grow_zero st h, h]
    · simp [PTNode.grow_succ _ st h, h]

/-! ## Forest-level counting helpers -/

/-- Ids of a forest's nodes, in pre-order. -/
def PTNode.forestIds (cs : List PTNode) : List Int :=
  (PTNode.nodesList cs).map PTNode._id

/-- Number of childless nodes of a forest. -/
def PTNode.forestLeaves (cs : List PTNode) : Nat :=
  ((PTNode.nodesList cs).filter (fun n => n.children.isEmpty)).length

@[simp] theorem PTNode.forestIds_nil : PTNode.forestIds [] = [] := by
  simp [PTNode.forestIds]

@[simp] theorem PTNode.forestIds_cons (c : PTNode) (cs : List PTNode) :
    PTNode.forestIds (c :: cs) = c.ids ++ PTNode.forestIds cs := by
  simp [PTNode.forestIds, PTNode.ids]

@[simp] theorem PTNode.forestLeaves_nil : PTNode.forestLeaves [] = 0 := by
  simp [PTNode.forestLeaves]

@[simp] theorem PTNode.forestLeaves_cons (c : PTNode) (cs : List PTNode) :
    PTNode.forestLeaves (c :: cs) = c.countLeaves + PTNode.forestLeaves cs := by
  simp [PTNode.forestLeaves, PTNode.countLeaves]

theorem PTNode.countLeaves_mk (i : Int) (l : Bool) (s : Nat) (p : Option Int)
    (cs : List PTNode) :
    (PTNode.mk i l s p cs).countLeaves =
      (if cs.isEmpty then 1 else 0) + PTNode.forestLeaves cs := by
  cases cs <;> simp [PTNode.countLeaves, PTNode.forestLeaves]

@[simp] theorem PTNode.ids_mk (i : Int) (l : Bool) (s : Nat) (p : Option Int)
    (cs : List PTNode) :
    (PTNode.mk i l s p cs).ids = i :: PTNode.forestIds cs := by
  simp [PTNode.ids, PTNode.forestIds]

/-- All-nodes check decomposes along the tree structure. -/
theorem PTNode.nodesList_all (check : PTNode → Bool) (cs : List PTNode) :
    (PTNode.nodesList cs).all check = cs.all fun c => c.nodes.all check := by
  induction cs with
  | nil => simp
  | cons c cs ih => simp [ih]

theorem PTNode.allNodes_mk (check : PTNode → Bool) (i : Int) (l : Bool)
    (s : Nat) (p : Option Int) (cs : List PTNode) :
    (PTNode.mk i l s p cs).allNodes check =
      (check (.mk i l s p cs) && cs.all fun c => c.allNodes check) := by
  simp [PTNode.allNodes, PTNode.nodesList_all]

/-! ## Checker invariance under `setParent` -/

@[simp] theorem PTNode.leafSizesOK_setParent (t : PTNode) (pid : Int) :
    (t.setParent pid).leafSizesOK = t.leafSizesOK := by
  cases t; simp [PTNode.leafSizesOK, PTNode.allNodes_mk]

@[simp] theorem PTNode.leafFlagsOK_setParent (t : PTNode) (pid : Int) :
    (t.setParent pid).leafFlagsOK = t.leafFlagsOK := by
  cases t; simp [PTNode.leafFlagsOK, PTNode.allNodes_mk]

@[simp] theorem PTNode.parentsOK_setParent (t : PTNode) (pid : Int) :
    (t.setParent pid).parentsOK = t.parentsOK := by
  cases t; simp [PTNode.parentsOK, PTNode.allNodes_mk]

@[simp] theorem PTNode.idOrderOK_setParent (t : PTNode) (pid : Int) :
    (t.setParent pid).idOrderOK = t.idOrderOK := by
  cases t; simp [PTNode.idOrderOK, PTNode.allNodes_mk]

/-! ## Contiguous integer ranges -/

/-- `[a, a + n)` as a list of `Int`s, in increasing order. -/
def intRange (a n : Nat) : List Int :=
  (List.range' a n).map Int.ofNat

@[simp] theorem intRange_zero (a : Nat) : intRange a 0 = [] := rfl

theorem intRange_succ (a n : Nat) :
    intRange a (n + 1) = (a : Int) :: intRange (a + 1) n := by
  simp [intRange, List.range'_succ]

theorem intRange_append (a m n : Nat) :
    intRange a m ++ intRange (a + m) n = intRange a (m + n) := by
  unfold intRange
  rw [← List.map_append]
  have h := List.range'_append a m n 1
  rw [one_mul] at h
  rw [h, Nat.add_comm n m]

@[simp] theorem intRange_length (a n : Nat) : (intRange a n).length = n := by
  unfold intRange
  rw [List.length_map, List.length_range']

theorem mem_intRange {a n : Nat} {x : Int} (hx : x ∈ intRange a n) :
    (a : Int) ≤ x ∧ x < (a : Int) + n := by
  unfold intRange at hx
  rw [List.mem_map] at hx
  obtain ⟨k, hk, rfl⟩ := hx
  rw [List.mem_range'_1] at hk
  rw [Int.ofNat_eq_coe]
  omega

/-! ## Member-wise induction over trees -/

/-- Structural induction on a `PTNode` with the induction hypothesis for
every member of the children list. -/
theorem PTNode.inductionOn {P : PTNode → Prop}
    (h : ∀ (i : Int) (l : Bool) (s : Nat) (p : Option Int) (cs : List PTNode),
      (∀ c ∈ cs, P c) → P (.mk i l s p cs)) (t : PTNode) : P t :=
  @PTNode.rec P (fun cs => ∀ c ∈ cs, P c)
    (fun i l s p cs ih => h i l s p cs ih)
    (by intro c hc; cases hc)
    (fun c cs hc hcs d hd => by
      rcases List.mem_cons.mp hd with h1 | h2
      · exact h1 ▸ hc
      · exact hcs d h2)
    t

/-! ## The send trace is the pre-order listing of per-node assignments -/

/-- The assignment triple sent for one node: destination rank = the node's
id; payload = (parent id or none, ordered child ids, ordered child
leaf sizes). -/
def PTNode.assignment (n : PTNode) :
    Int × (Option Int × List Int × List Nat) :=
  (n._id, (n.parent, n.get_child_ids, n.get_child_leaf_sizes))

@[simp] theorem PTNode.sendList_nil : PTNode.sendList [] = [] := by
  rw [PTNode.sendList]

@[simp] theorem PTNode.sendList_cons (c : PTNode) (cs : List PTNode) :
    PTNode.sendList (c :: cs) =
      c.sendParentsAndChildren ++ PTNode.sendList cs := by
  rw [PTNode.sendList]

@[simp] theorem PTNode.send_mk (i : Int) (l : Bool) (s : Nat)
    (p : Option Int) (cs : List PTNode) :
    (PTNode.mk i l s p cs).sendParentsAndChildren =
      (PTNode.mk i l s p cs).assignment :: PTNode.sendList cs := by
  rw [PTNode.sendParentsAndChildren]; rfl

/-- `_send_parents_and_children` sends exactly one message per node of the
tree, visiting the nodes in pre-order, and the message for a node is its
`assignment`. -/
theorem PTNode.send_eq_nodes_map (t : PTNode) :
    t.sendParentsAndChildren = t.nodes.map PTNode.assignment := by
  induction t using PTNode.inductionOn with
  | h i l s p cs ih =>
    simp only [PTNode.send_mk, PTNode.nodes_mk, List.map_cons]
    congr 1
    induction cs with
    | nil => simp
    | cons c cs ihl =>
      simp only [PTNode.sendList_cons, PTNode.nodesList_cons, List.map_append]
      rw [ih c (by simp), ihl (fun d hd => ih d (by simp [hd]))]

/-! ## Growth preserves the target shape parameters -/

/-- `st'` has the same `bf`, `height` and `desired_leaves` as `st`
(growing only ever touches the counters). -/
def GrowStatus.sameShape (st st' : GrowStatus) : Prop :=
  st'.bf = st.bf ∧ st'.height = st.height ∧
    st'.desired_leaves = st.desired_leaves

theorem GrowStatus.sameShape_refl (st : GrowStatus) : st.sameShape st :=
  ⟨rfl, rfl, rfl⟩

theorem GrowStatus.sameShape_trans {a b c : GrowStatus}
    (h1 : a.sameShape b) (h2 : b.sameShape c) : a.sameShape c :=
  ⟨h2.1.trans h1.1, h2.2.1.trans h1.2.1, h2.2.2.trans h1.2.2⟩

theorem PTNode.growChildren_sameShape
    (recur : GrowStatus → Bool × PTNode × GrowStatus) (pid : Int)
    (hrec : ∀ st : GrowStatus, st.sameShape (recur st).2.2) :
    ∀ (n : Nat) (st : GrowStatus),
      st.sameShape (PTNode.growChildren recur pid n st).2 := by
  intro n
  induction n with
  | zero => intro st; rw [PTNode.growChildren_zero]; exact st.sameShape_refl
  | succ n ih =>
    intro st
    rw [PTNode.growChildren_succ]
    simp only
    have h1 := hrec st
    have h2 := ih (recur st).2.2
    cases (recur st).1 <;> simpa using GrowStatus.sameShape_trans h1 h2

theorem PTNode.grow_sameShape :
    ∀ (fuel : Nat) (st : GrowStatus),
      st.sameShape (PTNode.grow fuel st).2.2 := by
  intro fuel
  induction fuel with
  | zero =>
    intro st
    by_cases h : st.enough
    · rw [PTNode.grow_enough _ _ h]; exact st.sameShape_refl
    · rw [PTNode.grow_zero _ h]; exact ⟨rfl, rfl, rfl⟩
  | succ f ih =>
    intro st
    by_cases h : st.enough
    · rw [PTNode.grow_enough _ _ h]; exact st.sameShape_refl
    · rw [PTNode.grow_succ _ _ h]
      simp only
      have h1 : st.sameShape { st with num_nodes := st.num_nodes + 1 } :=
        ⟨rfl, rfl, rfl⟩
      exact GrowStatus.sameShape_trans h1
        (PTNode.growChildren_sameShape (PTNode.grow f) _ ih _ _)

/-! ## Ids are handed out contiguously, in pre-order -/

theorem PTNode.growChildren_ids
    (recur : GrowStatus → Bool × PTNode × GrowStatus) (pid : Int)
    (hguard : ∀ st : GrowStatus, st.enough →
      recur st = (false, PTNode.unassigned, st))
    (hrec : ∀ st : GrowStatus, ¬st.enough →
      (recur st).1 = true ∧
      (recur st).2.2.num_nodes = st.num_nodes + (recur st).2.1.nodes.length ∧
      (recur st).2.1.ids =
        intRange st.num_nodes (recur st).2.1.nodes.length ∧
      (recur st).2.1.idOrderOK = true) :
    ∀ (n : Nat) (st : GrowStatus),
      (PTNode.growChildren recur pid n st).2.num_nodes =
        st.num_nodes +
          (PTNode.nodesList (PTNode.growChildren recur pid n st).1).length ∧
      PTNode.forestIds (PTNode.growChildren recur pid n st).1 =
        intRange st.num_nodes
          (PTNode.nodesList (PTNode.growChildren recur pid n st).1).length ∧
      ∀ c ∈ (PTNode.growChildren recur pid n st).1, c.idOrderOK = true := by
  intro n
  induction n with
  | zero => intro st; simp [PTNode.growChildren_zero]
  | succ n ih =>
    intro st
    rw [PTNode.growChildren_succ]
    simp only
    by_cases hg : st.enough
    · rw [hguard st hg]
      simpa using ih st
    · obtain ⟨hu, hnn, hids, hord⟩ := hrec st hg
      rw [hu]
      simp only [if_true]
      obtain ⟨ihnn, ihids, ihord⟩ := ih (recur st).2.2
      have hlen : ((recur st).2.1.setParent pid).nodes.length =
          (recur st).2.1.nodes.length := by simp
      refine ⟨?_, ?_, ?_⟩
      · simp only [PTNode.nodesList_cons, List.length_append, hlen]
        omega
      · rw [hnn] at ihids
        simp only [PTNode.forestIds_cons, PTNode.ids_setParent,
          PTNode.nodesList_cons, List.length_append, hlen, hids, ihids]
        rw [intRange_append]
      · intro c hc
        rcases List.mem_cons.mp hc with rfl | hmem
        · simpa using hord
        · exact ihord c hmem

/-! ## Structure lemmas for the checkers and membership -/

theorem PTNode.mem_nodesList {x c : PTNode} {cs : List PTNode}
    (hc : c ∈ cs) (hx : x ∈ c.nodes) : x ∈ PTNode.nodesList cs := by
  induction cs with
  | nil => cases hc
  | cons d ds ih =>
    rcases List.mem_cons.mp hc with rfl | hmem
    · simp [hx]
    · simp [ih hmem]

theorem PTNode.mem_nodesList_iff {x : PTNode} {cs : List PTNode} :
    x ∈ PTNode.nodesList cs ↔ ∃ c ∈ cs, x ∈ c.nodes := by
  induction cs with
  | nil => simp
  | cons d ds ih => simp [ih]

theorem PTNode.idOrderOK_mk (i : Int) (l : Bool) (s : Nat) (p : Option Int)
    (cs : List PTNode) :
    (PTNode.mk i l s p cs).idOrderOK =
      ((cs.all fun c => c.nodes.all fun m => i < m._id) &&
        cs.all fun c => c.idOrderOK) := by
  simp only [PTNode.idOrderOK, PTNode.allNodes_mk, PTNode.children_mk,
    PTNode.id_mk]

theorem PTNode.leafSizesOK_mk (i : Int) (l : Bool) (s : Nat) (p : Option Int)
    (cs : List PTNode) :
    (PTNode.mk i l s p cs).leafSizesOK =
      ((if cs.isEmpty then s == 1 else s == (cs.map PTNode.leaf_size).sum) &&
        cs.all fun c => c.leafSizesOK) := by
  simp only [PTNode.leafSizesOK, PTNode.allNodes_mk, PTNode.children_mk,
    PTNode.leaf_size_mk]

theorem PTNode.leafFlagsOK_mk (i : Int) (l : Bool) (s : Nat) (p : Option Int)
    (cs : List PTNode) :
    (PTNode.mk i l s p cs).leafFlagsOK =
      ((l == cs.isEmpty) && cs.all fun c => c.leafFlagsOK) := by
  simp only [PTNode.leafFlagsOK, PTNode.allNodes_mk, PTNode.children_mk,
    PTNode.is_leaf_mk]

theorem PTNode.parentsOK_mk (i : Int) (l : Bool) (s : Nat) (p : Option Int)
    (cs : List PTNode) :
    (PTNode.mk i l s p cs).parentsOK =
      ((cs.all fun c => c.parent == some i) &&
        cs.all fun c => c.parentsOK) := by
  simp only [PTNode.parentsOK, PTNode.allNodes_mk, PTNode.children_mk,
    PTNode.id_mk]

theorem PTNode.allNodes_pos_mk (i : Int) (l : Bool) (s : Nat) (p : Option Int)
    (cs : List PTNode) :
    (PTNode.mk i l s p cs).allNodes (fun n => decide (1 ≤ n.leaf_size)) =
      ((decide (1 ≤ s)) &&
        cs.all fun c => c.allNodes (fun n => decide (1 ≤ n.leaf_size))) := by
  simp only [PTNode.allNodes_mk, PTNode.leaf_size_mk]

/-- The node built by a useful non-leaf `grow` call. -/
theorem PTNode.grow_succ_node (f : Nat) (st : GrowStatus) (h : ¬st.enough) :
    (PTNode.grow (f + 1) st).2.1 =
      .mk (st.num_nodes : Int) false
        (((PTNode.growChildren (PTNode.grow f) (st.num_nodes : Int) st.bf
            { st with num_nodes := st.num_nodes + 1 }).1.map
          PTNode.leaf_size).sum)
        none
        (PTNode.growChildren (PTNode.grow f) (st.num_nodes : Int) st.bf
          { st with num_nodes := st.num_nodes + 1 }).1 := by
  rw [PTNode.grow_succ f st h]

/-- The status returned by a useful non-leaf `grow` call. -/
theorem PTNode.grow_succ_status (f : Nat) (st : GrowStatus) (h : ¬st.enough) :
    (PTNode.grow (f + 1) st).2.2 =
      (PTNode.growChildren (PTNode.grow f) (st.num_nodes : Int) st.bf
        { st with num_nodes := st.num_nodes + 1 }).2 := by
  rw [PTNode.grow_succ f st h]

/-- Invariant of a useful `grow` call: the node gets id `num_nodes`, the
subtree consumes the contiguous id block
`[st.num_nodes, st.num_nodes + size)` in pre-order, `num_nodes` advances by
the subtree size, and ids strictly increase into subtrees. -/
theorem PTNode.grow_ids :
    ∀ (fuel : Nat) (st : GrowStatus), ¬st.enough →
      (PTNode.grow fuel st).1 = true ∧
      (PTNode.grow fuel st).2.2.num_nodes =
        st.num_nodes + (PTNode.grow fuel st).2.1.nodes.length ∧
      (PTNode.grow fuel st).2.1.ids =
        intRange st.num_nodes (PTNode.grow fuel st).2.1.nodes.length ∧
      (PTNode.grow fuel st).2.1.idOrderOK = true ∧
      (PTNode.grow fuel st).2.1._id = (st.num_nodes : Int) := by
  intro fuel
  induction fuel with
  | zero =>
    intro st h
    rw [PTNode.grow_zero st h]
    refine ⟨rfl, ?_, ?_, ?_, rfl⟩
    · simp
    · simp [intRange_succ]
    · simp [PTNode.idOrderOK_mk]
  | succ f ih =>
    intro st h
    have hloop := PTNode.growChildren_ids (PTNode.grow f) (st.num_nodes : Int)
      (fun st' h' => PTNode.grow_enough f st' h')
      (fun st' h' => ⟨(ih st' h').1, (ih st' h').2.1, (ih st' h').2.2.1,
        (ih st' h').2.2.2.1⟩)
      st.bf { st with num_nodes := st.num_nodes + 1 }
    obtain ⟨lnn, lids, lord⟩ := hloop
    simp only at lnn lids lord
    rw [PTNode.grow_succ_node f st h, PTNode.grow_succ_status f st h,
      (PTNode.grow_useful_iff (f + 1) st).mpr h]
    refine ⟨rfl, ?_, ?_, ?_, rfl⟩
    · simp only [PTNode.nodes_mk, List.length_cons]
      omega
    · simp only [PTNode.ids_mk, PTNode.nodes_mk, List.length_cons, lids,
        intRange_succ]
    · rw [PTNode.idOrderOK_mk]
      rw [Bool.and_eq_true, List.all_eq_true, List.all_eq_true]
      constructor
      · intro c hc
        rw [List.all_eq_true]
        intro m hm
        have hmem : m._id ∈ PTNode.forestIds
            (PTNode.growChildren (PTNode.grow f) (st.num_nodes : Int) st.bf
              { st with num_nodes := st.num_nodes + 1 }).1 :=
          List.mem_map_of_mem PTNode._id (PTNode.mem_nodesList hc hm)
        rw [lids] at hmem
        have := mem_intRange hmem
        simp only [decide_eq_true_eq]
        omega
      · intro c hc
        exact lord c hc

/-! ## Leaf counting, `leaf_size` and the leaf flag -/

theorem PTNode.sum_leaf_sizes_eq_forestLeaves (cs : List PTNode)
    (h : ∀ c ∈ cs, c.leaf_size = c.countLeaves) :
    (cs.map PTNode.leaf_size).sum = PTNode.forestLeaves cs := by
  induction cs with
  | nil => simp
  | cons c cs ih =>
    simp only [List.map_cons, List.sum_cons, PTNode.forestLeaves_cons]
    rw [h c (by simp), ih (fun d hd => h d (by simp [hd]))]

theorem PTNode.growChildren_leaves
    (recur : GrowStatus → Bool × PTNode × GrowStatus) (pid : Int)
    (hguard : ∀ st : GrowStatus, st.enough →
      recur st = (false, PTNode.unassigned, st))
    (hshape : ∀ st : GrowStatus, st.sameShape (recur st).2.2)
    (hrec : ∀ st : GrowStatus, 1 ≤ st.bf → ¬st.enough →
      (recur st).1 = true ∧
      (recur st).2.2.num_leaves = st.num_leaves + (recur st).2.1.countLeaves ∧
      (recur st).2.1.leaf_size = (recur st).2.1.countLeaves ∧
      1 ≤ (recur st).2.1.countLeaves ∧
      (recur st).2.1.leafSizesOK = true ∧
      (recur st).2.1.leafFlagsOK = true ∧
      (recur st).2.1.allNodes (fun n => decide (1 ≤ n.leaf_size)) = true) :
    ∀ (n : Nat) (st : GrowStatus), 1 ≤ st.bf →
      (PTNode.growChildren recur pid n st).2.num_leaves =
        st.num_leaves +
          PTNode.forestLeaves (PTNode.growChildren recur pid n st).1 ∧
      (∀ c ∈ (PTNode.growChildren recur pid n st).1,
        c.leaf_size = c.countLeaves ∧ 1 ≤ c.countLeaves ∧
        c.leafSizesOK = true ∧ c.leafFlagsOK = true ∧
        c.allNodes (fun n => decide (1 ≤ n.leaf_size)) = true) ∧
      (0 < n → ¬st.enough →
        (PTNode.growChildren recur pid n st).1 ≠ []) := by
  intro n
  induction n with
  | zero =>
    intro st _
    rw [PTNode.growChildren_zero]
    exact ⟨by simp, by simp, fun h0 => absurd h0 (by simp)⟩
  | succ n ih =>
    intro st hbf
    rw [PTNode.growChildren_succ]
    simp only
    by_cases hg : st.enough
    · rw [hguard st hg]
      simp only [Bool.false_eq_true, if_false]
      obtain ⟨h1, h2, _⟩ := ih st hbf
      exact ⟨h1, h2, fun _ hng => absurd hg hng⟩
    · obtain ⟨hu, hnl, hsz, hpos, hok1, hok2, hok3⟩ := hrec st hbf hg
      rw [hu]
      simp only [if_true]
      have hbf2 : 1 ≤ (recur st).2.2.bf := by
        rw [(hshape st).1]; exact hbf
      obtain ⟨ih1, ih2, _⟩ := ih (recur st).2.2 hbf2
      refine ⟨?_, ?_, ?_⟩
      · rw [PTNode.forestLeaves_cons, PTNode.countLeaves_setParent, ih1, hnl]
        omega
      · intro c hc
        rcases List.mem_cons.mp hc with rfl | hmem
        · simp only [PTNode.leaf_size_setParent, PTNode.countLeaves_setParent,
            PTNode.leafSizesOK_setParent, PTNode.leafFlagsOK_setParent]
          refine ⟨hsz, hpos, hok1, hok2, ?_⟩
          cases hM : (recur st).2.1 with
          | mk i l s p cs =>
            rw [hM] at hok3
            simpa [PTNode.setParent, PTNode.allNodes_pos_mk] using hok3
        · exact ih2 c hmem
      · intro _ _
        simp

theorem PTNode.countLeaves_mk_of_ne (i : Int) (l : Bool) (s : Nat)
    (p : Option Int) (cs : List PTNode) (h : cs ≠ []) :
    (PTNode.mk i l s p cs).countLeaves = PTNode.forestLeaves cs := by
  cases cs with
  | nil => cases h rfl
  | cons c cs' => simp [PTNode.countLeaves_mk]

/-- Invariant of a useful `grow` call, leaf bookkeeping: `num_leaves`
advances by the number of leaves of the built subtree, `leaf_size` equals
that number (hence is positive) at every node, and the leaf flag is set
exactly on childless nodes. -/
theorem PTNode.grow_leaves :
    ∀ (fuel : Nat) (st : GrowStatus), 1 ≤ st.bf → ¬st.enough →
      (PTNode.grow fuel st).1 = true ∧
      (PTNode.grow fuel st).2.2.num_leaves =
        st.num_leaves + (PTNode.grow fuel st).2.1.countLeaves ∧
      (PTNode.grow fuel st).2.1.leaf_size =
        (PTNode.grow fuel st).2.1.countLeaves ∧
      1 ≤ (PTNode.grow fuel st).2.1.countLeaves ∧
      (PTNode.grow fuel st).2.1.leafSizesOK = true ∧
      (PTNode.grow fuel st).2.1.leafFlagsOK = true ∧
      (PTNode.grow fuel st).2.1.allNodes
        (fun n => decide (1 ≤ n.leaf_size)) = true ∧
      (0 < fuel → (PTNode.grow fuel st).2.1.children ≠ []) := by
  intro fuel
  induction fuel with
  | zero =>
    intro st _ h
    rw [PTNode.grow_zero st h]
    refine ⟨rfl, ?_, ?_, ?_, ?_, ?_, ?_, ?_⟩
    · simp [PTNode.countLeaves_mk]
    · simp [PTNode.countLeaves_mk]
    · simp [PTNode.countLeaves_mk]
    · simp [PTNode.leafSizesOK_mk]
    · simp [PTNode.leafFlagsOK_mk]
    · simp [PTNode.allNodes_pos_mk]
    · intro h0; cases h0
  | succ f ih =>
    intro st hbf h
    have hloop := PTNode.growChildren_leaves (PTNode.grow f)
      (st.num_nodes : Int)
      (fun st' h' => PTNode.grow_enough f st' h')
      (fun st' => PTNode.grow_sameShape f st')
      (fun st' hb hn => ⟨(ih st' hb hn).1, (ih st' hb hn).2.1,
        (ih st' hb hn).2.2.1, (ih st' hb hn).2.2.2.1,
        (ih st' hb hn).2.2.2.2.1, (ih st' hb hn).2.2.2.2.2.1,
        (ih st' hb hn).2.2.2.2.2.2.1⟩)
      st.bf { st with num_nodes := st.num_nodes + 1 } hbf
    obtain ⟨hl1, hl2, hl3⟩ := hloop
    simp only at hl1 hl2 hl3
    have hne : (PTNode.growChildren (PTNode.grow f) (st.num_nodes : Int)
        st.bf { st with num_nodes := st.num_nodes + 1 }).1 ≠ [] :=
      hl3 hbf h
    rw [PTNode.grow_succ_node f st h, PTNode.grow_succ_status f st h,
      (PTNode.grow_useful_iff (f + 1) st).mpr h]
    refine ⟨rfl, ?_, ?_, ?_, ?_, ?_, ?_, ?_⟩
    · rw [PTNode.countLeaves_mk_of_ne _ _ _ _ _ hne, hl1]
    · rw [PTNode.countLeaves_mk_of_ne _ _ _ _ _ hne, PTNode.leaf_size_mk]
      exact PTNode.sum_leaf_sizes_eq_forestLeaves _
        (fun c hc => (hl2 c hc).1)
    · rw [PTNode.countLeaves_mk_of_ne _ _ _ _ _ hne]
      cases hsplit : (PTNode.growChildren (PTNode.grow f) (st.num_nodes : Int)
          st.bf { st with num_nodes := st.num_nodes + 1 }).1 with
      | nil => cases hne hsplit
      | cons c cs' =>
        have hcpos : 1 ≤ c.countLeaves :=
          (hl2 c (by rw [hsplit]; simp)).2.1
        rw [PTNode.forestLeaves_cons]
        omega
    · rw [PTNode.leafSizesOK_mk]
      cases hsplit : (PTNode.growChildren (PTNode.grow f) (st.num_nodes : Int)
          st.bf { st with num_nodes := st.num_nodes + 1 }).1 with
      | nil => cases hne hsplit
      | cons c cs' =>
        rw [← hsplit]
        simp only [hsplit, List.isEmpty_cons, if_false, Bool.false_eq_true]
        rw [Bool.and_eq_true, List.all_eq_true]
        exact ⟨by simp [← hsplit], fun d hd => (hl2 d (by rw [← hsplit] at hd; exact hd)).2.2.1⟩
    · rw [PTNode.leafFlagsOK_mk]
      cases hsplit : (PTNode.growChildren (PTNode.grow f) (st.num_nodes : Int)
          st.bf { st with num_nodes := st.num_nodes + 1 }).1 with
      | nil => cases hne hsplit
      | cons c cs' =>
        rw [← hsplit]
        simp only [hsplit, List.isEmpty_cons, Bool.false_eq_true]
        rw [Bool.and_eq_true, List.all_eq_true]
        exact ⟨by simp, fun d hd => (hl2 d (by rw [← hsplit] at hd; exact hd)).2.2.2.1⟩
    · rw [PTNode.allNodes_pos_mk]
      rw [Bool.and_eq_true, List.all_eq_true]
      constructor
      · rw [PTNode.sum_leaf_sizes_eq_forestLeaves _ (fun c hc => (hl2 c hc).1)]
        cases hsplit : (PTNode.growChildren (PTNode.grow f) (st.num_nodes : Int)
            st.bf { st with num_nodes := st.num_nodes + 1 }).1 with
        | nil => cases hne hsplit
        | cons c cs' =>
          have hcpos : 1 ≤ c.countLeaves :=
            (hl2 c (by rw [hsplit]; simp)).2.1
          rw [PTNode.forestLeaves_cons]
          simp only [decide_eq_true_eq]
          omega
      · exact fun c hc => (hl2 c hc).2.2.2.2
    · intro _
      rw [PTNode.children_mk]
      exact hne

/-! ## The exact number of leaves: `min desired (current + bf ^ fuel)` -/

/-- The final status of one loop step does not depend on whether the child
was accepted. -/
theorem PTNode.growChildren_succ_status
    (recur : GrowStatus → Bool × PTNode × GrowStatus) (pid : Int)
    (n : Nat) (st : GrowStatus) :
    (PTNode.growChildren recur pid (n + 1) st).2 =
      (PTNode.growChildren recur pid n (recur st).2.2).2 := by
  rw [PTNode.growChildren_succ]
  simp only
  cases (recur st).1 <;> rfl

theorem PTNode.growChildren_min
    (recur : GrowStatus → Bool × PTNode × GrowStatus) (pid : Int)
    (b cap : Nat)
    (hshape : ∀ st : GrowStatus, st.sameShape (recur st).2.2)
    (hrec : ∀ st : GrowStatus, st.bf = b →
      st.num_leaves ≤ st.desired_leaves.toNat →
      (recur st).2.2.num_leaves =
        min st.desired_leaves.toNat (st.num_leaves + cap)) :
    ∀ (n : Nat) (st : GrowStatus), st.bf = b →
      st.num_leaves ≤ st.desired_leaves.toNat →
      (PTNode.growChildren recur pid n st).2.num_leaves =
        min st.desired_leaves.toNat (st.num_leaves + n * cap) := by
  intro n
  induction n with
  | zero =>
    intro st _ hle
    rw [PTNode.growChildren_zero]
    simp only [Nat.zero_mul, Nat.add_zero]
    omega
  | succ n ih =>
    intro st hb hle
    rw [PTNode.growChildren_succ_status]
    have h1 := hrec st hb hle
    have hsh := hshape st
    have hb2 : (recur st).2.2.bf = b := by rw [hsh.1, hb]
    have hd2 : (recur st).2.2.desired_leaves = st.desired_leaves := hsh.2.2
    have hle2 : (recur st).2.2.num_leaves ≤
        (recur st).2.2.desired_leaves.toNat := by
      rw [h1, hd2]; omega
    have h2 := ih (recur st).2.2 hb2 hle2
    rw [h2, hd2, h1, Nat.succ_mul]
    omega

/-- Invariant of `grow`: starting below the target, the leaf counter lands
on exactly `min desired_leaves (num_leaves + bf ^ fuel)` — the target if the
subtree has enough capacity, the full balanced capacity otherwise. -/
theorem PTNode.grow_min :
    ∀ (fuel : Nat) (st : GrowStatus),
      st.num_leaves ≤ st.desired_leaves.toNat →
      (PTNode.grow fuel st).2.2.num_leaves =
        min st.desired_leaves.toNat (st.num_leaves + st.bf ^ fuel) := by
  intro fuel
  induction fuel with
  | zero =>
    intro st hle
    by_cases h : st.enough
    · rw [PTNode.grow_enough 0 st h]
      have hD : st.desired_leaves.toNat ≤ st.num_leaves := Int.toNat_le.mpr h
      simp only [pow_zero]
      omega
    · rw [PTNode.grow_zero st h]
      have hD : st.num_leaves < st.desired_leaves.toNat := by
        rw [GrowStatus.enough, not_le] at h
        exact Int.lt_toNat.mpr h
      simp only [pow_zero]
      omega
  | succ f ih =>
    intro st hle
    by_cases h : st.enough
    · rw [PTNode.grow_enough (f + 1) st h]
      have hD : st.desired_leaves.toNat ≤ st.num_leaves := Int.toNat_le.mpr h
      simp only
      omega
    · rw [PTNode.grow_succ_status f st h]
      have hD : st.num_leaves < st.desired_leaves.toNat := by
        rw [GrowStatus.enough, not_le] at h
        exact Int.lt_toNat.mpr h
      have hloop := PTNode.growChildren_min (PTNode.grow f)
        (st.num_nodes : Int) st.bf (st.bf ^ f)
        (fun st' => PTNode.grow_sameShape f st')
        (fun st' hb' hle' => by rw [ih st' hle', hb'])
        st.bf { st with num_nodes := st.num_nodes + 1 } rfl
        (by simp only; omega)
      rw [hloop]
      simp only
      rw [pow_succ, Nat.mul_comm (st.bf ^ f) st.bf]

/-! ## Uniform depth of the grown tree -/

/-- All maximal paths of the tree have length exactly `f`: a tree grown
with `fuel = f` is a leaf when `f = 0`, and otherwise an internal node all
of whose children satisfy the property one level down. -/
def PTNode.uniformDepth : Nat → PTNode → Bool
  | 0, t => t.is_leaf && t.children.isEmpty
  | f + 1, t => !t.is_leaf && t.children.all (PTNode.uniformDepth f)

@[simp] theorem PTNode.uniformDepth_setParent (f : Nat) (t : PTNode)
    (pid : Int) :
    PTNode.uniformDepth f (t.setParent pid) = PTNode.uniformDepth f t := by
  cases f <;> cases t <;> simp [PTNode.uniformDepth]

/-- A tree of uniform depth `f` has no node below depth `f`, and all its
nodes at depth `f` are marked leaves and childless. -/
theorem PTNode.uniformDepth_spec :
    ∀ (f : Nat) (t : PTNode), PTNode.uniformDepth f t = true →
      (∀ d : Nat, f < d → PTNode.nodesAtDepth d t = []) ∧
      (∀ n ∈ PTNode.nodesAtDepth f t, n.is_leaf = true ∧ n.children = []) := by
  intro f
  induction f with
  | zero =>
    intro t h
    rw [PTNode.uniformDepth, Bool.and_eq_true] at h
    constructor
    · intro d hd
      cases d with
      | zero => cases hd
      | succ d =>
        rw [PTNode.nodesAtDepth_succ]
        have : t.children = [] := by
          cases ht : t.children with
          | nil => rfl
          | cons c cs => rw [ht] at h; simp at h
        rw [this]
        simp
    · intro n hn
      rw [PTNode.nodesAtDepth_zero, List.mem_singleton] at hn
      subst hn
      refine ⟨h.1, ?_⟩
      cases ht : n.children with
      | nil => rfl
      | cons c cs => rw [ht] at h; simp at h
  | succ f ih =>
    intro t h
    rw [PTNode.uniformDepth, Bool.and_eq_true, List.all_eq_true] at h
    constructor
    · intro d hd
      cases d with
      | zero => cases hd
      | succ d =>
        rw [PTNode.nodesAtDepth_succ, List.flatten_eq_nil_iff]
        intro l hl
        rw [List.mem_map] at hl
        obtain ⟨c, hc, rfl⟩ := hl
        exact (ih c (h.2 c hc)).1 d (by omega)
    · intro n hn
      rw [PTNode.nodesAtDepth_succ, List.mem_flatten] at hn
      obtain ⟨l, hl, hnl⟩ := hn
      rw [List.mem_map] at hl
      obtain ⟨c, hc, rfl⟩ := hl
      exact (ih c (h.2 c hc)).2 n hnl

theorem PTNode.growChildren_depth
    (recur : GrowStatus → Bool × PTNode × GrowStatus) (pid : Int) (f : Nat)
    (hguard : ∀ st : GrowStatus, st.enough →
      recur st = (false, PTNode.unassigned, st))
    (hrec : ∀ st : GrowStatus, ¬st.enough →
      PTNode.uniformDepth f (recur st).2.1 = true) :
    ∀ (n : Nat) (st : GrowStatus),
      ∀ c ∈ (PTNode.growChildren recur pid n st).1,
        PTNode.uniformDepth f c = true := by
  intro n
  induction n with
  | zero => intro st c hc; rw [PTNode.growChildren_zero] at hc; cases hc
  | succ n ih =>
    intro st c hc
    rw [PTNode.growChildren_succ] at hc
    simp only at hc
    cases hu : (recur st).1 with
    | false =>
      rw [hu] at hc
      simp only [Bool.false_eq_true, if_false] at hc
      exact ih (recur st).2.2 c hc
    | true =>
      have hg : ¬st.enough := by
        intro hgg
        rw [hguard st hgg] at hu
        cases hu
      rw [hu] at hc
      simp only [if_true] at hc
      rcases List.mem_cons.mp hc with rfl | hmem
      · rw [PTNode.uniformDepth_setParent]
        exact hrec st hg
      · exact ih (recur st).2.2 c hmem

/-- Invariant of a useful `grow` call: the built subtree has uniform depth
equal to the fuel (= `height - depth`) of the call. -/
theorem PTNode.grow_depth :
    ∀ (fuel : Nat) (st : GrowStatus), ¬st.enough →
      PTNode.uniformDepth fuel (PTNode.grow fuel st).2.1 = true := by
  intro fuel
  induction fuel with
  | zero =>
    intro st h
    rw [PTNode.grow_zero st h]
    simp [PTNode.uniformDepth]
  | succ f ih =>
    intro st h
    rw [PTNode.grow_succ_node f st h]
    rw [PTNode.uniformDepth]
    simp only [PTNode.is_leaf_mk, PTNode.children_mk, Bool.not_false,
      Bool.true_and]
    rw [List.all_eq_true]
    exact PTNode.growChildren_depth (PTNode.grow f) (st.num_nodes : Int) f
      (fun st' h' => PTNode.grow_enough f st' h') ih st.bf
      { st with num_nodes := st.num_nodes + 1 }

/-! ## Parent links -/

theorem PTNode.growChildren_parents
    (recur : GrowStatus → Bool × PTNode × GrowStatus) (pid : Int)
    (hguard : ∀ st : GrowStatus, st.enough →
      recur st = (false, PTNode.unassigned, st))
    (hrec : ∀ st : GrowStatus, ¬st.enough →
      (recur st).2.1.parentsOK = true) :
    ∀ (n : Nat) (st : GrowStatus),
      ∀ c ∈ (PTNode.growChildren recur pid n st).1,
        c.parentsOK = true ∧ c.parent = some pid := by
  intro n
  induction n with
  | zero => intro st c hc; rw [PTNode.growChildren_zero] at hc; cases hc
  | succ n ih =>
    intro st c hc
    rw [PTNode.growChildren_succ] at hc
    simp only at hc
    cases hu : (recur st).1 with
    | false =>
      rw [hu] at hc
      simp only [Bool.false_eq_true, if_false] at hc
      exact ih (recur st).2.2 c hc
    | true =>
      have hg : ¬st.enough := by
        intro hgg
        rw [hguard st hgg] at hu
        cases hu
      rw [hu] at hc
      simp only [if_true] at hc
      rcases List.mem_cons.mp hc with rfl | hmem
      · rw [PTNode.parentsOK_setParent, PTNode.parent_setParent]
        exact ⟨hrec st hg, rfl⟩
      · exact ih (recur st).2.2 c hmem

/-- Invariant of a useful `grow` call: inside the built subtree every
child's stored `parent` is its owner's id, and the subtree's root has no
parent yet. -/
theorem PTNode.grow_parents :
    ∀ (fuel : Nat) (st : GrowStatus), ¬st.enough →
      (PTNode.grow fuel st).2.1.parentsOK = true ∧
      (PTNode.grow fuel st).2.1.parent = none := by
  intro fuel
  induction fuel with
  | zero =>
    intro st h
    rw [PTNode.grow_zero st h]
    exact ⟨by simp [PTNode.parentsOK_mk], rfl⟩
  | succ f ih =>
    intro st h
    rw [PTNode.grow_succ_node f st h]
    constructor
    · rw [PTNode.parentsOK_mk, Bool.and_eq_true, List.all_eq_true,
        List.all_eq_true]
      have hloop := PTNode.growChildren_parents (PTNode.grow f)
        (st.num_nodes : Int)
        (fun st' h' => PTNode.grow_enough f st' h')
        (fun st' h' => (ih st' h').1) st.bf
        { st with num_nodes := st.num_nodes + 1 }
      constructor
      · intro c hc
        rw [(hloop c hc).2]
        simp
      · intro c hc
        exact (hloop c hc).1
    · rfl

/-- Children of nodes of a tree are nodes of that tree. -/
theorem PTNode.children_mem_nodes :
    ∀ (t : PTNode), ∀ n ∈ t.nodes, ∀ c ∈ n.children, c ∈ t.nodes := by
  intro t
  induction t using PTNode.inductionOn with
  | h i l s p cs ih =>
    intro n hn c hc
    rw [PTNode.nodes_mk] at hn ⊢
    rcases List.mem_cons.mp hn with rfl | hmem
    · rw [PTNode.children_mk] at hc
      exact List.mem_cons_of_mem _
        (PTNode.mem_nodesList hc (PTNode.self_mem_nodes c))
    · rw [PTNode.mem_nodesList_iff] at hmem
      obtain ⟨c0, hc0, hn0⟩ := hmem
      exact List.mem_cons_of_mem _
        (PTNode.mem_nodesList hc0 (ih c0 hc0 n hn0 c hc))

/-! ## Instrumented growth: counting the recursive calls

`growI` computes exactly what `grow` computes and additionally counts how
many times `grow` is invoked (the call itself included).  The recursion of
the source is depth-bounded (`fuel = height - depth` shrinks to 0) with at
most `bf` recursive calls per level, so the count is at most
`(bf + 1) ^ (fuel + 1)`. -/

def PTNode.growChildrenI
    (recurI : GrowStatus → (Bool × PTNode × GrowStatus) × Nat) (pid : Int) :
    Nat → GrowStatus → (List PTNode × GrowStatus) × Nat
  | 0, st => (([], st), 0)
  | n + 1, st =>
    let r := recurI st
    let rest := PTNode.growChildrenI recurI pid n r.1.2.2
    ((if r.1.1 then (r.1.2.1.setParent pid :: rest.1.1, rest.1.2)
      else rest.1), r.2 + rest.2)

def PTNode.growI : Nat → GrowStatus → (Bool × PTNode × GrowStatus) × Nat
  | fuel, status =>
    if status.enough then
      ((false, PTNode.unassigned, status), 1)
    else
      let i : Int := status.num_nodes
      let st1 : GrowStatus :=
        { status with num_nodes := status.num_nodes + 1 }
      match fuel with
      | 0 =>
        ((true, .mk i true 1 none [],
          { st1 with num_leaves := st1.num_leaves + 1 }), 1)
      | fuel' + 1 =>
        let r := PTNode.growChildrenI (PTNode.growI fuel') i st1.bf st1
        ((true, .mk i false ((r.1.1.map PTNode.leaf_size).sum) none r.1.1,
          r.1.2), 1 + r.2)

theorem PTNode.growChildrenI_agrees
    (recurI : GrowStatus → (Bool × PTNode × GrowStatus) × Nat)
    (recur : GrowStatus → Bool × PTNode × GrowStatus) (pid : Int)
    (hrec : ∀ st : GrowStatus, (recurI st).1 = recur st) :
    ∀ (n : Nat) (st : GrowStatus),
      (PTNode.growChildrenI recurI pid n st).1 =
        PTNode.growChildren recur pid n st := by
  intro n
  induction n with
  | zero => intro st; rfl
  | succ n ih =>
    intro st
    rw [PTNode.growChildrenI, PTNode.growChildren_succ]
    simp only [hrec st, ih (recur st).2.2]

/-- The instrumented growth computes exactly what `grow` computes. -/
theorem PTNode.growI_agrees :
    ∀ (fuel : Nat) (st : GrowStatus),
      (PTNode.growI fuel st).1 = PTNode.grow fuel st := by
  intro fuel
  induction fuel with
  | zero =>
    intro st
    by_cases h : st.enough <;> simp [PTNode.growI, PTNode.grow, h]
  | succ f ih =>
    intro st
    by_cases h : st.enough
    · simp [PTNode.growI, PTNode.grow, h]
    · rw [PTNode.growI, PTNode.grow]
      simp only [if_neg h]
      rw [PTNode.growChildrenI_agrees (PTNode.growI f) (PTNode.grow f) _ ih]

theorem PTNode.growChildrenI_count
    (recurI : GrowStatus → (Bool × PTNode × GrowStatus) × Nat) (pid : Int)
    (b K : Nat)
    (hshape : ∀ st : GrowStatus, (recurI st).1.2.2.bf = st.bf)
    (hrec : ∀ st : GrowStatus, st.bf = b → (recurI st).2 ≤ K) :
    ∀ (n : Nat) (st : GrowStatus), st.bf = b →
      (PTNode.growChildrenI recurI pid n st).2 ≤ n * K := by
  intro n
  induction n with
  | zero => intro st _; simp [PTNode.growChildrenI]
  | succ n ih =>
    intro st hb
    rw [PTNode.growChildrenI]
    simp only
    have h1 := hrec st hb
    have h2 := ih (recurI st).1.2.2 (by rw [hshape st, hb])
    rw [Nat.succ_mul]
    omega

/-- Each level of the recursion makes at most `bf` recursive calls and the
fuel shrinks by one per level, so a `grow` call with the given fuel makes
at most `(bf + 1) ^ (fuel + 1)` calls in total. -/
theorem PTNode.growI_count :
    ∀ (fuel : Nat) (st : GrowStatus),
      (PTNode.growI fuel st).2 ≤ (st.bf + 1) ^ (fuel + 1) := by
  intro fuel
  induction fuel with
  | zero =>
    intro st
    have h1 : 1 ≤ (st.bf + 1) ^ (0 + 1) := Nat.one_le_pow _ _ (by omega)
    by_cases h : st.enough
    · rw [PTNode.growI, if_pos h]
      exact h1
    · rw [PTNode.growI, if_neg h]
      exact h1
  | succ f ih =>
    intro st
    by_cases h : st.enough
    · have h1 : 1 ≤ (st.bf + 1) ^ (f + 1 + 1) := Nat.one_le_pow _ _ (by omega)
      simp only [PTNode.growI, if_pos h]
      exact h1
    · rw [PTNode.growI]
      simp only [if_neg h]
      have hshape : ∀ st' : GrowStatus,
          (PTNode.growI f st').1.2.2.bf = st'.bf := by
        intro st'
        rw [PTNode.growI_agrees f st']
        exact (PTNode.grow_sameShape f st').1
      have hloop := PTNode.growChildrenI_count (PTNode.growI f)
        (st.num_nodes : Int) st.bf ((st.bf + 1) ^ (f + 1)) hshape
        (fun st' hb' => by rw [← hb']; exact ih st')
        st.bf { st with num_nodes := st.num_nodes + 1 } rfl
      have hX : 1 ≤ (st.bf + 1) ^ (f + 1) := Nat.one_le_pow _ _ (by omega)
      have hpow : (st.bf + 1) ^ (f + 1 + 1) =
          (st.bf + 1) ^ (f + 1) * st.bf + (st.bf + 1) ^ (f + 1) := by
        rw [pow_succ]
        ring
      rw [hpow]
      rw [Nat.mul_comm ((st.bf + 1) ^ (f + 1)) st.bf]
      omega

/-! ## The claims -/

/-- C6: if `grow_tree` is called with `desired_leaves ≤ 0`, the root's
`grow` call returns `False` immediately: the root keeps all class defaults
(id `-1`, no children attached) and the counters stay at
`num_nodes = 0`, `num_leaves = 0` — no state mutation on the not-useful
return. -/
theorem claim_C6 (bf height : Nat) (desired_leaves : Int)
    (hd : desired_leaves ≤ 0) :
    PTNode.grow height ⟨bf, height, desired_leaves, 0, 0⟩ =
      (false, PTNode.unassigned, ⟨bf, height, desired_leaves, 0, 0⟩) ∧
    (grow_tree bf height desired_leaves).1 = PTNode.unassigned ∧
    (grow_tree bf height desired_leaves).1._id = -1 ∧
    (grow_tree bf height desired_leaves).2.num_nodes = 0 ∧
    (grow_tree bf height desired_leaves).2.num_leaves = 0 := by
  have he : (⟨bf, height, desired_leaves, 0, 0⟩ : GrowStatus).enough := by
    rw [GrowStatus.enough]
    simp only [Nat.cast_zero, ge_iff_le]
    omega
  have h := PTNode.grow_enough height ⟨bf, height, desired_leaves, 0, 0⟩ he
  refine ⟨h, ?_, ?_, ?_, ?_⟩ <;> simp [grow_tree, h, PTNode.unassigned]

/-- C6 witness: concrete instance at `desired_leaves = 0`. -/
theorem claim_C6_witness :
    (0 : Int) ≤ 0 ∧
    (PTNode.grow 2 ⟨3, 2, 0, 0, 0⟩ =
      (false, PTNode.unassigned, ⟨3, 2, 0, 0, 0⟩) ∧
    (grow_tree 3 2 0).1 = PTNode.unassigned ∧
    (grow_tree 3 2 0).1._id = -1 ∧
    (grow_tree 3 2 0).2.num_nodes = 0 ∧
    (grow_tree 3 2 0).2.num_leaves = 0) :=
  ⟨by decide, claim_C6 3 2 0 (by decide)⟩

/-- C8: the recursion of `PTNode.grow` is depth-bounded with bounded
branching, so `grow_tree` always terminates.  Formalised over the
instrumented variant `growI`, which computes the same result as `grow`
while counting every `grow` invocation: the count for a whole `grow_tree`
run (root fuel = `height`, i.e. the source's well-founded measure
`height - depth` at depth 0) is at most `(branching_factor + 1) ^ (height + 1)`,
since each level makes at most `branching_factor` recursive calls at
fuel one smaller and recursion stops at fuel `0` (`depth == height`). -/
theorem claim_C8 (bf height : Nat) (desired_leaves : Int) :
    (PTNode.growI height ⟨bf, height, desired_leaves, 0, 0⟩).1 =
      PTNode.grow height ⟨bf, height, desired_leaves, 0, 0⟩ ∧
    ((PTNode.growI height ⟨bf, height, desired_leaves, 0, 0⟩).1.2.1,
      (PTNode.growI height ⟨bf, height, desired_leaves, 0, 0⟩).1.2.2) =
      grow_tree bf height desired_leaves ∧
    (PTNode.growI height ⟨bf, height, desired_leaves, 0, 0⟩).2 ≤
      (bf + 1) ^ (height + 1) := by
  refine ⟨PTNode.growI_agrees height _, ?_, ?_⟩
  · rw [PTNode.growI_agrees height _]
    rfl
  · exact PTNode.growI_count height _

/-- C1: for every `branching_factor ≥ 1`, `height ≥ 0` and
`1 ≤ desired_leaves ≤ branching_factor ^ height`, the grown tree has
exactly `desired_leaves` leaf nodes (and the final `num_leaves` equals
`desired_leaves`), no node lies at depth greater than `height`, and every
node at depth `height` is a leaf. -/
theorem claim_C1 (bf height d : Nat) (hbf : 1 ≤ bf) (hd1 : 1 ≤ d)
    (hd2 : d ≤ bf ^ height) :
    (grow_tree bf height (d : Int)).1.countLeaves = d ∧
    (grow_tree bf height (d : Int)).2.num_leaves = d ∧
    (∀ k : Nat, height < k →
      PTNode.nodesAtDepth k (grow_tree bf height (d : Int)).1 = []) ∧
    (∀ n ∈ PTNode.nodesAtDepth height (grow_tree bf height (d : Int)).1,
      n.is_leaf = true) := by
  have hne : ¬(⟨bf, height, (d : Int), 0, 0⟩ : GrowStatus).enough := by
    rw [GrowStatus.enough]
    simp only [Nat.cast_zero, ge_iff_le, not_le]
    exact_mod_cast hd1
  have hmin := PTNode.grow_min height ⟨bf, height, (d : Int), 0, 0⟩
    (by simp)
  have hnl : (PTNode.grow height
      (⟨bf, height, (d : Int), 0, 0⟩ : GrowStatus)).2.2.num_leaves = d := by
    rw [hmin]
    simp only [Int.toNat_natCast, Nat.zero_add]
    omega
  have hleaves := PTNode.grow_leaves height ⟨bf, height, (d : Int), 0, 0⟩
    hbf hne
  have hdepth := PTNode.uniformDepth_spec height _
    (PTNode.grow_depth height ⟨bf, height, (d : Int), 0, 0⟩ hne)
  refine ⟨?_, ?_, ?_, ?_⟩
  · have := hleaves.2.1
    simp only at this
    have hcount : (PTNode.grow height
        (⟨bf, height, (d : Int), 0, 0⟩ : GrowStatus)).2.1.countLeaves = d := by
      omega
    exact hcount
  · exact hnl
  · exact fun k hk => hdepth.1 k hk
  · exact fun n hn => (hdepth.2 n hn).1

/-- C1 witness: concrete instance at `bf = 2`, `height = 1`,
`desired_leaves = 2`. -/
theorem claim_C1_witness :
    1 ≤ 2 ∧ 1 ≤ 2 ∧ 2 ≤ 2 ^ 1 ∧
    ((grow_tree 2 1 (2 : Int)).1.countLeaves = 2 ∧
    (grow_tree 2 1 (2 : Int)).2.num_leaves = 2 ∧
    (∀ k : Nat, 1 < k →
      PTNode.nodesAtDepth k (grow_tree 2 1 (2 : Int)).1 = []) ∧
    (∀ n ∈ PTNode.nodesAtDepth 1 (grow_tree 2 1 (2 : Int)).1,
      n.is_leaf = true)) :=
  ⟨by decide, by decide, by decide,
    claim_C1 2 1 2 (by decide) (by decide) (by decide)⟩

/-- C2: for every valid configuration the ids of the nodes of the returned
tree, read in pre-order, are exactly the contiguous range
`[0, num_nodes)`; consequently every node's id is strictly smaller than
every id inside its own subtree. -/
theorem claim_C2 (bf height d : Nat) (_hbf : 1 ≤ bf) (hd : 1 ≤ d) :
    (grow_tree bf height (d : Int)).1.ids =
      intRange 0 (grow_tree bf height (d : Int)).2.num_nodes ∧
    (∀ n ∈ (grow_tree bf height (d : Int)).1.nodes,
      ∀ c ∈ n.children, ∀ m ∈ c.nodes, n._id < m._id) := by
  have hne : ¬(⟨bf, height, (d : Int), 0, 0⟩ : GrowStatus).enough := by
    rw [GrowStatus.enough]
    simp only [Nat.cast_zero, ge_iff_le, not_le]
    exact_mod_cast hd
  obtain ⟨-, hnn, hids, hord, -⟩ :=
    PTNode.grow_ids height ⟨bf, height, (d : Int), 0, 0⟩ hne
  simp only [Nat.zero_add] at hnn hids
  constructor
  · rw [grow_tree]
    simp only
    rw [hids, hnn]
  · intro n hn c hc m hm
    rw [PTNode.idOrderOK, PTNode.allNodes, List.all_eq_true] at hord
    have h1 := hord n hn
    rw [List.all_eq_true] at h1
    have h2 := h1 c hc
    rw [List.all_eq_true] at h2
    have h3 := h2 m hm
    exact of_decide_eq_true h3

/-- C2 witness: concrete instance at `bf = 2`, `height = 1`,
`desired_leaves = 2`. -/
theorem claim_C2_witness :
    1 ≤ 2 ∧ 1 ≤ 2 ∧
    ((grow_tree 2 1 (2 : Int)).1.ids =
      intRange 0 (grow_tree 2 1 (2 : Int)).2.num_nodes ∧
    (∀ n ∈ (grow_tree 2 1 (2 : Int)).1.nodes,
      ∀ c ∈ n.children, ∀ m ∈ c.nodes, n._id < m._id)) :=
  ⟨by decide, by decide, claim_C2 2 1 2 (by decide) (by decide)⟩

/-- C3: in the returned tree every leaf node has `leaf_size = 1`, every
internal (non-leaf) node's `leaf_size` is the sum of its children's
`leaf_size` values, and the root's `leaf_size` equals the final
`num_leaves`. -/
theorem claim_C3 (bf height d : Nat) (hbf : 1 ≤ bf) (hd : 1 ≤ d) :
    (∀ n ∈ (grow_tree bf height (d : Int)).1.nodes,
      (n.is_leaf = true → n.leaf_size = 1) ∧
      (n.is_leaf = false →
        n.leaf_size = (n.children.map PTNode.leaf_size).sum)) ∧
    (grow_tree bf height (d : Int)).1.leaf_size =
      (grow_tree bf height (d : Int)).2.num_leaves := by
  have hne : ¬(⟨bf, height, (d : Int), 0, 0⟩ : GrowStatus).enough := by
    rw [GrowStatus.enough]
    simp only [Nat.cast_zero, ge_iff_le, not_le]
    exact_mod_cast hd
  have hleaves := PTNode.grow_leaves height ⟨bf, height, (d : Int), 0, 0⟩
    hbf hne
  obtain ⟨-, hnl, hsz, -, hsizes, hflags, -, -⟩ := hleaves
  constructor
  · intro n hn
    rw [PTNode.leafSizesOK, PTNode.allNodes, List.all_eq_true] at hsizes
    rw [PTNode.leafFlagsOK, PTNode.allNodes, List.all_eq_true] at hflags
    have h1 := hsizes n hn
    have h2 := hflags n hn
    rw [beq_iff_eq] at h2
    constructor
    · intro hl
      rw [hl] at h2
      rw [← h2] at h1
      simpa using h1
    · intro hl
      rw [hl] at h2
      rw [← h2] at h1
      simpa using h1
  · simp only at hnl hsz
    rw [grow_tree]
    simp only
    omega

/-- C3 witness: concrete instance at `bf = 2`, `height = 1`,
`desired_leaves = 2`. -/
theorem claim_C3_witness :
    1 ≤ 2 ∧ 1 ≤ 2 ∧
    ((∀ n ∈ (grow_tree 2 1 (2 : Int)).1.nodes,
      (n.is_leaf = true → n.leaf_size = 1) ∧
      (n.is_leaf = false →
        n.leaf_size = (n.children.map PTNode.leaf_size).sum)) ∧
    (grow_tree 2 1 (2 : Int)).1.leaf_size =
      (grow_tree 2 1 (2 : Int)).2.num_leaves) :=
  ⟨by decide, by decide, claim_C3 2 1 2 (by decide) (by decide)⟩

/-- C5: a `grow` call whose entry guard does not fire
(`num_leaves < desired_leaves`) at `depth < height` (i.e. with positive
fuel `height - depth`) returns `True` and attaches at least one child;
in the tree it returns, every non-leaf node has a non-empty children list
and every attached child contributed at least one leaf
(`leaf_size ≥ 1`). -/
theorem claim_C5 (fuel : Nat) (st : GrowStatus) (hbf : 1 ≤ st.bf)
    (hguard : (st.num_leaves : Int) < st.desired_leaves) (hfuel : 0 < fuel) :
    (PTNode.grow fuel st).1 = true ∧
    (PTNode.grow fuel st).2.1.children ≠ [] ∧
    (∀ n ∈ (PTNode.grow fuel st).2.1.nodes,
      n.is_leaf = false → n.children ≠ []) ∧
    (∀ n ∈ (PTNode.grow fuel st).2.1.nodes, ∀ c ∈ n.children,
      1 ≤ c.leaf_size) := by
  have hne : ¬st.enough := by
    rw [GrowStatus.enough]
    omega
  obtain ⟨hu, -, -, -, -, hflags, hpos, hchild⟩ :=
    PTNode.grow_leaves fuel st hbf hne
  refine ⟨hu, hchild hfuel, ?_, ?_⟩
  · intro n hn hl
    rw [PTNode.leafFlagsOK, PTNode.allNodes, List.all_eq_true] at hflags
    have h2 := hflags n hn
    rw [beq_iff_eq, hl] at h2
    intro hnil
    rw [hnil] at h2
    simp at h2
  · intro n hn c hc
    rw [PTNode.allNodes, List.all_eq_true] at hpos
    have hcm := PTNode.children_mem_nodes _ n hn c hc
    have := hpos c hcm
    exact of_decide_eq_true this

/-- C5 witness: concrete instance at fuel 1,
state `(bf .= 2, height .= 1, desired .= 2, counters 0)`. -/
theorem claim_C5_witness :
    1 ≤ (⟨2, 1, 2, 0, 0⟩ : GrowStatus).bf ∧
    (((⟨2, 1, 2, 0, 0⟩ : GrowStatus).num_leaves : Int) <
      (⟨2, 1, 2, 0, 0⟩ : GrowStatus).desired_leaves) ∧ 0 < 1 ∧
    ((PTNode.grow 1 ⟨2, 1, 2, 0, 0⟩).1 = true ∧
    (PTNode.grow 1 ⟨2, 1, 2, 0, 0⟩).2.1.children ≠ [] ∧
    (∀ n ∈ (PTNode.grow 1 ⟨2, 1, 2, 0, 0⟩).2.1.nodes,
      n.is_leaf = false → n.children ≠ []) ∧
    (∀ n ∈ (PTNode.grow 1 ⟨2, 1, 2, 0, 0⟩).2.1.nodes, ∀ c ∈ n.children,
      1 ≤ c.leaf_size)) :=
  ⟨by decide, by decide, by decide,
    claim_C5 1 ⟨2, 1, 2, 0, 0⟩ (by decide) (by decide) (by decide)⟩

/-- C7: when `branching_factor ^ height < desired_leaves` (with
`branching_factor ≥ 1`), `grow_tree` completes normally and produces the
full balanced tree: the final `num_leaves` (and the tree's leaf count)
equals `branching_factor ^ height`, strictly fewer than requested. -/
theorem claim_C7 (bf height d : Nat) (hbf : 1 ≤ bf)
    (hcap : bf ^ height < d) :
    (grow_tree bf height (d : Int)).2.num_leaves = bf ^ height ∧
    (grow_tree bf height (d : Int)).1.countLeaves = bf ^ height ∧
    (grow_tree bf height (d : Int)).2.num_leaves < d := by
  have hd1 : 1 ≤ d := by
    have : 1 ≤ bf ^ height := Nat.one_le_pow _ _ (by omega)
    omega
  have hne : ¬(⟨bf, height, (d : Int), 0, 0⟩ : GrowStatus).enough := by
    rw [GrowStatus.enough]
    simp only [Nat.cast_zero, ge_iff_le, not_le]
    exact_mod_cast hd1
  have hmin := PTNode.grow_min height ⟨bf, height, (d : Int), 0, 0⟩ (by simp)
  have hnl : (PTNode.grow height
      (⟨bf, height, (d : Int), 0, 0⟩ : GrowStatus)).2.2.num_leaves =
      bf ^ height := by
    rw [hmin]
    simp only [Int.toNat_natCast, Nat.zero_add]
    omega
  obtain ⟨-, hnl2, -, -, -, -, -, -⟩ :=
    PTNode.grow_leaves height ⟨bf, height, (d : Int), 0, 0⟩ hbf hne
  simp only [Nat.zero_add] at hnl2
  refine ⟨hnl, ?_, ?_⟩
  · rw [grow_tree]
    simp only
    omega
  · rw [grow_tree]
    simp only
    omega

/-- C7 witness: concrete instance at `bf = 2`, `height = 1`,
`desired_leaves = 3 > 2 ^ 1`. -/
theorem claim_C7_witness :
    1 ≤ 2 ∧ 2 ^ 1 < 3 ∧
    ((grow_tree 2 1 (3 : Int)).2.num_leaves = 2 ^ 1 ∧
    (grow_tree 2 1 (3 : Int)).1.countLeaves = 2 ^ 1 ∧
    (grow_tree 2 1 (3 : Int)).2.num_leaves < 3) :=
  ⟨by decide, by decide, claim_C7 2 1 3 (by decide) (by decide)⟩

/-- C9: in the returned tree the `is_leaf` flag is `true` exactly for the
nodes whose children list is empty. -/
theorem claim_C9 (bf height d : Nat) (hbf : 1 ≤ bf) (hd : 1 ≤ d) :
    ∀ n ∈ (grow_tree bf height (d : Int)).1.nodes,
      n.is_leaf = true ↔ n.children = [] := by
  have hne : ¬(⟨bf, height, (d : Int), 0, 0⟩ : GrowStatus).enough := by
    rw [GrowStatus.enough]
    simp only [Nat.cast_zero, ge_iff_le, not_le]
    exact_mod_cast hd
  obtain ⟨-, -, -, -, -, hflags, -, -⟩ :=
    PTNode.grow_leaves height ⟨bf, height, (d : Int), 0, 0⟩ hbf hne
  intro n hn
  rw [PTNode.leafFlagsOK, PTNode.allNodes, List.all_eq_true] at hflags
  have h2 := hflags n hn
  rw [beq_iff_eq] at h2
  rw [h2]
  cases n.children <;> simp

/-- C9 witness: concrete instance at `bf = 2`, `height = 1`,
`desired_leaves = 2`. -/
theorem claim_C9_witness :
    1 ≤ 2 ∧ 1 ≤ 2 ∧
    (∀ n ∈ (grow_tree 2 1 (2 : Int)).1.nodes,
      n.is_leaf = true ↔ n.children = []) :=
  ⟨by decide, by decide, claim_C9 2 1 2 (by decide) (by decide)⟩

/-- C4: for a tree produced by `grow_tree` with a useful root
(`desired_leaves > 0`), the distribution traversal performs exactly
`num_nodes` sends, one per tree node in pre-order; the message for a node
is addressed to the rank equal to the node's id and carries the triple
(parent's id — `none` for the root —, the children's ids in children
order, and the children's `leaf_size` values in the same order). -/
theorem claim_C4 (bf height : Nat) (d : Int) (hd : 0 < d) :
    ((grow_tree bf height d).1.sendParentsAndChildren).length =
      (grow_tree bf height d).2.num_nodes ∧
    (grow_tree bf height d).1.sendParentsAndChildren =
      (grow_tree bf height d).1.nodes.map PTNode.assignment ∧
    (∀ n : PTNode, PTNode.assignment n =
      (n._id, (n.parent, n.get_child_ids, n.get_child_leaf_sizes))) ∧
    (grow_tree bf height d).1.parent = none ∧
    (∀ n ∈ (grow_tree bf height d).1.nodes, ∀ c ∈ n.children,
      c.parent = some n._id) := by
  have hne : ¬(⟨bf, height, d, 0, 0⟩ : GrowStatus).enough := by
    rw [GrowStatus.enough]
    simp only [Nat.cast_zero, ge_iff_le, not_le]
    exact hd
  obtain ⟨-, hnn, -, -, -⟩ :=
    PTNode.grow_ids height ⟨bf, height, d, 0, 0⟩ hne
  simp only [Nat.zero_add] at hnn
  obtain ⟨hpar, hroot⟩ := PTNode.grow_parents height ⟨bf, height, d, 0, 0⟩ hne
  refine ⟨?_, ?_, fun n => rfl, hroot, ?_⟩
  · rw [PTNode.send_eq_nodes_map, List.length_map]
    rw [grow_tree]
    simp only
    omega
  · exact PTNode.send_eq_nodes_map _
  · intro n hn c hc
    rw [PTNode.parentsOK, PTNode.allNodes, List.all_eq_true] at hpar
    have h1 := hpar n hn
    rw [List.all_eq_true] at h1
    have h2 := h1 c hc
    rwa [beq_iff_eq] at h2

/-- C4 witness: concrete instance at `bf = 2`, `height = 1`,
`desired_leaves = 2`. -/
theorem claim_C4_witness :
    (0 : Int) < 2 ∧
    (((grow_tree 2 1 2).1.sendParentsAndChildren).length =
      (grow_tree 2 1 2).2.num_nodes ∧
    (grow_tree 2 1 2).1.sendParentsAndChildren =
      (grow_tree 2 1 2).1.nodes.map PTNode.assignment ∧
    (∀ n : PTNode, PTNode.assignment n =
      (n._id, (n.parent, n.get_child_ids, n.get_child_leaf_sizes))) ∧
    (grow_tree 2 1 2).1.parent = none ∧
    (∀ n ∈ (grow_tree 2 1 2).1.nodes, ∀ c ∈ n.children,
      c.parent = some n._id)) :=
  ⟨by decide, claim_C4 2 1 2 (by decide)⟩

/-- C10: the distribution traversal emits its messages in strictly
increasing destination-rank order: the k-th message sent (counting from 0)
goes to rank `k`, for every `k` in `[0, num_nodes)`; in particular the
first message sent is the coordinator's message to itself (rank 0, the
root's id). -/
theorem claim_C10 (bf height : Nat) (d : Int) (hd : 0 < d) :
    ((grow_tree bf height d).1.sendParentsAndChildren).map Prod.fst =
      intRange 0 (grow_tree bf height d).2.num_nodes ∧
    (((grow_tree bf height d).1.sendParentsAndChildren).map Prod.fst).head? =
      some 0 ∧
    (grow_tree bf height d).1._id = 0 := by
  have hne : ¬(⟨bf, height, d, 0, 0⟩ : GrowStatus).enough := by
    rw [GrowStatus.enough]
    simp only [Nat.cast_zero, ge_iff_le, not_le]
    exact hd
  obtain ⟨-, hnn, hids, -, hid0⟩ :=
    PTNode.grow_ids height ⟨bf, height, d, 0, 0⟩ hne
  simp only [Nat.zero_add] at hnn hids hid0
  have hfst : ((grow_tree bf height d).1.sendParentsAndChildren).map
      Prod.fst = (grow_tree bf height d).1.ids := by
    rw [PTNode.send_eq_nodes_map, List.map_map, PTNode.ids]
    rfl
  have hlen1 : 1 ≤ (PTNode.grow height
      (⟨bf, height, d, 0, 0⟩ : GrowStatus)).2.1.nodes.length := by
    cases hsplit : (PTNode.grow height
        (⟨bf, height, d, 0, 0⟩ : GrowStatus)).2.1.nodes with
    | nil => exact absurd hsplit (PTNode.nodes_ne_nil _)
    | cons a l => simp
  refine ⟨?_, ?_, ?_⟩
  · rw [hfst]
    rw [grow_tree]
    simp only
    rw [hids, hnn]
  · rw [hfst]
    rw [grow_tree]
    simp only
    rw [hids]
    cases hsplit : (PTNode.grow height
        (⟨bf, height, d, 0, 0⟩ : GrowStatus)).2.1.nodes.length with
    | zero => omega
    | succ m => rw [intRange_succ]; rfl
  · rw [grow_tree]
    simp only
    rw [hid0]
    rfl

/-- C10 witness: concrete instance at `bf = 2`, `height = 1`,
`desired_leaves = 2`. -/
theorem claim_C10_witness :
    (0 : Int) < 2 ∧
    (((grow_tree 2 1 2).1.sendParentsAndChildren).map Prod.fst =
      intRange 0 (grow_tree 2 1 2).2.num_nodes ∧
    (((grow_tree 2 1 2).1.sendParentsAndChildren).map Prod.fst).head? =
      some 0 ∧
    (grow_tree 2 1 2).1._id = 0) :=
  ⟨by decide, claim_C10 2 1 2 (by decide)⟩
